import Mathlib

/-!
Shallow embedding of the college-events chatbot core (`app.py`):
tokenization, stopword removal, canonicalization, intent detection,
event scoring/ranking, and the per-intent response generators.

Python strings become Lean `String`s; Python dict records become the
`Event` structure (optional keys become `Option`); `datetime.date`
values become `SimpleDate`; `datetime.strptime(s, "%Y-%m-%d")` becomes
`parseDate`; the current date (`datetime.now().date()`) is passed
explicitly as a `today : SimpleDate` parameter; the module-level
`EVENTS` list is passed explicitly as an `events : List Event`
parameter.  `try/except` around date parsing becomes the `Option`
returned by `parseDate`.
-/

/-- An event record, per the data-model schema: `title`, `description`,
`date` and `location` are required strings; `time`, `organizer`, `fee`
and `registration_link` are optional (accessed with `.get` in the code);
`tags` defaults to the empty list.  The derived lowercase `_title`,
`_desc`, `_tags` fields of the code are recomputed in `matchBag`. -/
structure Event where
  title : String
  description : String
  date : String
  time : Option String
  location : String
  organizer : Option String
  fee : Option String
  registration_link : Option String
  tags : List String
deriving DecidableEq

/-- A calendar date, the embedding of `datetime.date`. -/
structure SimpleDate where
  year : Nat
  month : Nat
  day : Nat
deriving DecidableEq

/-- Lexicographic order on dates, the embedding of `date.__le__`. -/
def dateLe (a b : SimpleDate) : Bool :=
  decide (a.year < b.year ∨ (a.year = b.year ∧
    (a.month < b.month ∨ (a.month = b.month ∧ a.day ≤ b.day))))

/-- Strict lexicographic order on dates (`date.__lt__`). -/
def dateLt (a b : SimpleDate) : Bool :=
  decide (a.year < b.year ∨ (a.year = b.year ∧
    (a.month < b.month ∨ (a.month = b.month ∧ a.day < b.day))))

/-- Days in a month, with the Gregorian leap-year rule, as enforced by
the `datetime` constructor. -/
def daysInMonth (y m : Nat) : Nat :=
  if m = 2 then
    if y % 4 = 0 ∧ (y % 100 ≠ 0 ∨ y % 400 = 0) then 29 else 28
  else if m = 4 ∨ m = 6 ∨ m = 9 ∨ m = 11 then 30
  else 31

/-- Split a character list at every occurrence of `sep`, keeping empty
pieces: the embedding of Python `str.split(sep)` at character level. -/
def splitChar (sep : Char) : List Char → List (List Char)
  | [] => [[]]
  | c :: cs =>
    let r := splitChar sep cs
    if c = sep then [] :: r
    else
      match r with
      | [] => [[c]]
      | g :: gs => (c :: g) :: gs

/-- Numeric value of a digit string read left to right (`int(s)` on an
all-digit string). -/
def digitsToNat (cs : List Char) : Nat :=
  cs.foldl (fun a c => a * 10 + (c.toNat - 48)) 0

/-- `datetime.strptime(s, "%Y-%m-%d").date()` wrapped in `try/except`:
exactly four year digits, one or two month digits with value 1–12, one
or two day digits with value within the month, whole string consumed;
year 0 is rejected (`datetime.MINYEAR` is 1).  Returns `none` where the
Python raises. -/
def parseDate (s : String) : Option SimpleDate :=
  match splitChar '-' s.toList with
  | [y, m, d] =>
    if y.length = 4 ∧ y.all Char.isDigit ∧
       1 ≤ m.length ∧ m.length ≤ 2 ∧ m.all Char.isDigit ∧
       1 ≤ d.length ∧ d.length ≤ 2 ∧ d.all Char.isDigit then
      let yn := digitsToNat y
      let mn := digitsToNat m
      let dn := digitsToNat d
      if 1 ≤ yn ∧ 1 ≤ mn ∧ mn ≤ 12 ∧ 1 ≤ dn ∧ dn ≤ daysInMonth yn mn then
        some ⟨yn, mn, dn⟩
      else none
    else none
  | _ => none

/-- Group the maximal runs of characters satisfying `p`, dropping the
separating characters (the shape shared by `re.findall` of a character
class and `str.split()` with no argument). -/
def splitRuns (p : Char → Bool) : List Char → List (List Char)
  | [] => []
  | c :: cs =>
    let r := splitRuns p cs
    if p c then
      match r, cs with
      | g :: gs, c2 :: _ => if p c2 then (c :: g) :: gs else [c] :: (g :: gs)
      | _, _ => [c] :: r
    else r

/-- Lowercase a string character by character (`str.lower`). -/
def lowerStr (s : String) : String := String.mk (s.toList.map Char.toLower)

/-- The character class of `TOKEN_RE = [a-zA-Z0-9']+`. -/
def isTokChar (c : Char) : Bool := c.isAlpha || c.isDigit || c = '\''

/-- The `STOPWORDS` set, transcribed word for word (duplicates kept;
only membership matters). -/
def STOPWORDS : List String :=
  ["a", "an", "the", "is", "are", "was", "were", "be", "been", "being",
   "do", "does", "did", "to", "for", "of", "on", "in", "at", "by",
   "with", "from", "and", "or", "as", "about", "into", "over", "after",
   "before", "between", "during", "under", "again", "further", "then",
   "once", "here", "there", "when", "where", "why", "how", "all", "any",
   "both", "each", "few", "more", "most", "other", "some", "such", "no",
   "nor", "not", "only", "own", "same", "so", "than", "too", "very",
   "can", "will", "just", "don", "don", "should", "now", "i", "you",
   "he", "she", "it", "we", "they", "me", "my", "our", "your", "their",
   "what", "which", "who", "whom", "this", "that", "these", "those",
   "afterwards", "also", "although", "among", "amongst", "am", "aren",
   "because", "couldn", "couldn", "didn", "down", "hadn", "hasn",
   "haven", "having", "isn", "let", "might", "must", "needn", "ought",
   "shouldn", "wasn", "weren", "won", "wouldn"]

/-- The `SYNONYMS` dict, in insertion order. -/
def SYNONYMS : List (String × List String) :=
  [("when", ["when", "date", "time", "schedule", "timing", "day", "today", "tomorrow"]),
   ("where", ["where", "venue", "location", "place", "hall", "room", "auditorium", "block"]),
   ("register", ["register", "registration", "apply", "enroll", "signup", "sign-up", "fees", "cost"]),
   ("what", ["what", "info", "details", "about", "describe", "description"]),
   ("who", ["who", "speaker", "host", "club", "department", "organizer"]),
   ("next", ["next", "upcoming", "soon", "latest", "nearest"])]

/-- The `CANONICAL` dict, in insertion order. -/
def CANONICAL : List (String × String) :=
  [("venue", "where"), ("location", "where"), ("place", "where"), ("hall", "where"),
   ("when", "when"), ("date", "when"), ("time", "when"), ("timing", "when"), ("schedule", "when"),
   ("register", "register"), ("registration", "register"), ("signup", "register"), ("fees", "register"),
   ("speaker", "who"), ("host", "who"), ("club", "who"), ("organizer", "who"),
   ("about", "what"), ("details", "what"),
   ("upcoming", "next"), ("latest", "next"), ("soon", "next")]

/-- Dictionary lookup in `CANONICAL` (`t in CANONICAL` / `CANONICAL[t]`). -/
def canonLookup (t : String) : Option String :=
  (CANONICAL.find? (fun p => p.1 = t)).map (fun p => p.2)

/-- `tokenize`: find all `[a-zA-Z0-9']+` runs, lowercase them, drop
stopwords. -/
def tokenize (text : String) : List String :=
  ((splitRuns isTokChar text.toList).map
    (fun cs => String.mk (cs.map Char.toLower))).filter
    (fun t => ¬ t ∈ STOPWORDS)

/-- `normalize`: rewrite each token through `CANONICAL`, pass through
unmapped tokens. -/
def normalizeTokens (tokens : List String) : List String :=
  tokens.map (fun t => (canonLookup t).getD t)

/-- `detect_intents`: intents any of whose synonyms occur in the tokens,
plus the canonical image of every token that has one. -/
def detectIntents (tokens : List String) : List String :=
  (SYNONYMS.filter (fun p => p.2.any (fun s => s ∈ tokens))).map (fun p => p.1)
    ++ tokens.filterMap canonLookup

/-- Python `str.split()` (split on whitespace runs, no empty pieces). -/
def splitWS (s : String) : List String :=
  (splitRuns (fun c => ¬ c.isWhitespace) s.toList).map String.mk

/-- The event's match bag: union of space-split lowercase title words,
space-split lowercase description words, and lowercase tags —
`set(ev["_title"].split()) | set(ev["_desc"].split()) | set(ev["_tags"])`. -/
def matchBag (ev : Event) : List String :=
  (splitWS (lowerStr ev.title) ++ splitWS (lowerStr ev.description)
    ++ ev.tags.map lowerStr).dedup

/-- Python substring test `t in w` on strings. -/
def isSubstrOf (t w : String) : Bool :=
  go t.toList w.toList
where
  /-- `listPrefix a b`: a is a prefix of b. -/
  listPrefix : List Char → List Char → Bool
    | [], _ => true
    | _ :: _, [] => false
    | a :: as, b :: bs => a = b && listPrefix as bs
  /-- try the prefix test at every suffix of `w`. -/
  go : List Char → List Char → Bool
    | t, [] => t.isEmpty
    | t, w@(_ :: ws) => listPrefix t w || go t ws

/-- The recency boost of `score_event`: +1 when the event's date parses
and is today or later; unparseable dates contribute 0 (the `except`
branch). -/
def recencyBonus (ev : Event) (today : SimpleDate) : Nat :=
  match parseDate ev.date with
  | some d => if dateLe today d then 1 else 0
  | none => 0

/-- `score_event`: over the set of query tokens, +2 for an exact member
of the match bag, else +1 when some bag word contains the token and the
token is longer than 3; plus the recency boost. -/
def scoreEvent (queryTokens : List String) (ev : Event) (today : SimpleDate) : Nat :=
  let bag := queryTokens.dedup
  let textbag := matchBag ev
  let base := bag.foldl (fun acc t =>
    if t ∈ textbag then acc + 2
    else if textbag.any (fun w => isSubstrOf t w && decide (3 < t.length)) then acc + 1
    else acc) 0
  base + recencyBonus ev today

/-- Stable insertion: `x` goes before the first element `y` with
`lt y x = false` (elements already in place that compare strictly
"before x" are skipped). -/
def insertStable {α : Type} (lt : α → α → Bool) (x : α) : List α → List α
  | [] => [x]
  | y :: ys => if lt y x then y :: insertStable lt x ys else x :: y :: ys

/-- Stable sort by repeated insertion; with `lt a b` meaning "a is
strictly ordered before b", equal elements keep their original order,
matching Python's stable `sorted`. -/
def sortStable {α : Type} (lt : α → α → Bool) (l : List α) : List α :=
  l.foldr (insertStable lt) []

/-- `find_best_event`: sort the events by score descending (stable,
`sorted(..., reverse=True)`), take the first; `None` if its score is
below 2.  The empty collection (where `ranked[0]` would raise) maps to
`none`. -/
def findBestEvent (queryTokens : List String) (events : List Event)
    (today : SimpleDate) : Option Event :=
  let ranked := sortStable
    (fun a b => decide (scoreEvent queryTokens b today < scoreEvent queryTokens a today))
    events
  match ranked with
  | [] => none
  | best :: _ =>
    if scoreEvent queryTokens best today < 2 then none else some best

-- small sanity checks of the pipeline on concrete data
example : tokenize "When is the Tech Fest?" = ["tech", "fest"] := by decide
example : normalizeTokens (tokenize "date venue hackathon") = ["when", "where", "hackathon"] := by decide
example : parseDate "2025-03-05" = some ⟨2025, 3, 5⟩ := by decide
example : parseDate "2025-02-30" = none := by decide
example : parseDate "2025-3-5" = some ⟨2025, 3, 5⟩ := by decide
example : parseDate "20250305" = none := by decide
example : isSubstrOf "fest" "techfest" = true := by decide
example : isSubstrOf "fest" "hack" = false := by decide
example : splitWS "annual tech  fest" = ["annual", "tech", "fest"] := by decide

/-- The character for a decimal digit value (`chr(48 + d)`). -/
def digitChar (d : Nat) : Char := Char.ofNat (48 + d)

/-- Decimal digits of a number, most significant first; fuel-driven so
that it reduces in the kernel.  `natToDigits` supplies enough fuel. -/
def natToDigitsAux : Nat → Nat → List Char
  | 0, _ => []
  | fuel + 1, n =>
    if n < 10 then [digitChar n]
    else natToDigitsAux fuel (n / 10) ++ [digitChar (n % 10)]

/-- Decimal representation of a natural number (`"%d" % n` without
padding). -/
def natToDigits (n : Nat) : List Char := natToDigitsAux (n + 1) n

/-- Two-digit zero-padded day, as `strftime("%d")` renders it. -/
def pad2 (n : Nat) : List Char :=
  if n < 10 then ['0', digitChar n] else natToDigits n

/-- `strftime("%b")`: the abbreviated month name. -/
def monthAbbrev (m : Nat) : List Char :=
  match m with
  | 1 => "Jan".toList | 2 => "Feb".toList | 3 => "Mar".toList
  | 4 => "Apr".toList | 5 => "May".toList | 6 => "Jun".toList
  | 7 => "Jul".toList | 8 => "Aug".toList | 9 => "Sep".toList
  | 10 => "Oct".toList | 11 => "Nov".toList | 12 => "Dec".toList
  | _ => []

/-- `d.strftime("%d %b %Y")`: zero-padded day, month abbreviation,
year. -/
def fmtDMY (d : SimpleDate) : String :=
  String.mk (pad2 d.day ++ ' ' :: monthAbbrev d.month ++ ' ' :: natToDigits d.year)

/-- The month number of an abbreviation, for reading a `DD Mon YYYY`
string back. -/
def monthFromAbbrev (cs : List Char) : Option Nat :=
  if cs = "Jan".toList then some 1 else if cs = "Feb".toList then some 2
  else if cs = "Mar".toList then some 3 else if cs = "Apr".toList then some 4
  else if cs = "May".toList then some 5 else if cs = "Jun".toList then some 6
  else if cs = "Jul".toList then some 7 else if cs = "Aug".toList then some 8
  else if cs = "Sep".toList then some 9 else if cs = "Oct".toList then some 10
  else if cs = "Nov".toList then some 11 else if cs = "Dec".toList then some 12
  else none

/-- Read a date written under the `DD Mon YYYY` convention: day digits,
a month abbreviation, year digits, separated by single spaces. -/
def readDMY (s : String) : Option SimpleDate :=
  match splitChar ' ' s.toList with
  | [d, mon, y] =>
    if d ≠ [] ∧ d.all Char.isDigit ∧ y ≠ [] ∧ y.all Char.isDigit then
      (monthFromAbbrev mon).map (fun m => ⟨digitsToNat y, m, digitsToNat d⟩)
    else none
  | _ => none

/-- `fmt_datetime`: the parsed date rendered `DD Mon YYYY`, the raw
date string when parsing fails, with an `at <time>` suffix when the
event's time is non-empty (`ev.get("time", "")` is truthy). -/
def fmtDatetime (ev : Event) : String :=
  let d := match parseDate ev.date with
    | some dt => fmtDMY dt
    | none => ev.date
  let t := ev.time.getD ""
  if t = "" then d else d ++ " at " ++ t

/-- `reply_when`. -/
def replyWhen (ev : Event) : String :=
  "📅 " ++ ev.title ++ " is scheduled on " ++ fmtDatetime ev ++ "."

/-- `reply_where`. -/
def replyWhere (ev : Event) : String :=
  "📍 Venue: " ++ ev.location ++ " (for " ++ ev.title ++ ")."

/-- Truthiness of `ev.get('fee')` with fees modelled as strings: a
present, non-empty value. -/
def feeTruthy (ev : Event) : Bool :=
  match ev.fee with
  | none => false
  | some f => f ≠ ""

/-- The fee string itself (`ev['fee']`, only read when truthy). -/
def feeStrOf (ev : Event) : String := (ev.fee).getD ""

/-- The link text of `reply_register`:
`ev.get("registration_link") or "Registration link will be announced soon."`
(`or` takes the fallback on a missing or empty value). -/
def linkTextOf (ev : Event) : String :=
  match ev.registration_link with
  | none => "Registration link will be announced soon."
  | some l => if l = "" then "Registration link will be announced soon." else l

/-- `" | ".join(...)` / `"\n".join(...)`: join with a separator. -/
def joinSep (sep : String) : List String → String
  | [] => ""
  | x :: xs => xs.foldl (fun acc y => acc ++ sep ++ y) x

/-- `reply_register`: title, fee line (empty when the fee is falsy),
link line, joined with a separator after dropping falsy parts. -/
def replyRegister (ev : Event) : String :=
  let fee := if feeTruthy ev then "Fee: ₹" ++ feeStrOf ev else ""
  let link := linkTextOf ev
  let parts := ["📝 Registration for " ++ ev.title, fee, "Link: " ++ link]
  joinSep " | " (parts.filter (fun p => p ≠ ""))

/-- `reply_who` (`ev.get('organizer', 'the organizing team')`). -/
def replyWho (ev : Event) : String :=
  "👥 Organized by " ++ (ev.organizer).getD "the organizing team" ++ " for " ++ ev.title ++ "."

/-- `reply_what`. -/
def replyWhat (ev : Event) : String :=
  "ℹ️ " ++ ev.title ++ ": " ++ ev.description

/-- The filter step of `reply_next`: the events whose date parses and is
today or later, paired with their parsed date; events whose date fails
to parse are skipped (the `except: continue`). -/
def upcomingEvents (events : List Event) (today : SimpleDate) :
    List (SimpleDate × Event) :=
  events.filterMap (fun ev =>
    match parseDate ev.date with
    | some d => if dateLe today d then some (d, ev) else none
    | none => none)

/-- The sort step of `reply_next`: `upcoming.sort(key=lambda x: x[0])`,
a stable ascending sort on the parsed date. -/
def upcomingSorted (events : List Event) (today : SimpleDate) :
    List (SimpleDate × Event) :=
  sortStable (fun a b => dateLt a.1 b.1) (upcomingEvents events today)

/-- One bullet line of the upcoming digest. -/
def bulletLine (p : SimpleDate × Event) : String :=
  "• " ++ p.2.title ++ " — " ++ fmtDMY p.1 ++ " at " ++ p.2.time.getD "" ++ " — " ++ p.2.location

/-- `reply_next`: the upcoming digest — a fixed message when nothing is
upcoming, else a header plus one bullet for each of the first three
events. -/
def replyNext (events : List Event) (today : SimpleDate) : String :=
  match upcomingSorted events today with
  | [] => "There are no upcoming events right now. Please check back later."
  | l@(_ :: _) => joinSep "\n" ("🗓️ Upcoming events:" :: (l.take 3).map bulletLine)

/-- `INTENT_TO_HANDLER` applied to an intent name; the final branch is
never reached from `generate_response` (the loop only passes the five
keys). -/
def intentHandler (intent : String) (ev : Event) : String :=
  if intent = "when" then replyWhen ev
  else if intent = "where" then replyWhere ev
  else if intent = "register" then replyRegister ev
  else if intent = "who" then replyWho ev
  else if intent = "what" then replyWhat ev
  else ""

/-- `not user_text or not user_text.strip()`: the input is empty or
whitespace only. -/
def isBlank (s : String) : Bool := s.toList.all Char.isWhitespace

/-- `generate_response`, with the event store and the current date as
explicit parameters. -/
def generateResponse (userText : String) (events : List Event)
    (today : SimpleDate) : String :=
  if isBlank userText then
    "Please type a question about a college event."
  else
    let tokens := normalizeTokens (tokenize userText)
    let intents := detectIntents tokens
    if ["hello", "hi", "hey"].any (fun w => w ∈ tokens) then
      "Hi! Ask me about college events — try 'when is the tech fest?' or 'how to register for hackathon?'"
    else if "next" ∈ intents then
      replyNext events today
    else
      match findBestEvent tokens events today with
      | none =>
        "I couldn't find that event. Try including the event name (e.g., 'tech fest', 'hackathon').\n\n"
          ++ replyNext events today
      | some ev =>
        match ["when", "where", "register", "who", "what"].find? (fun i => i ∈ intents) with
        | some intent => intentHandler intent ev
        | none =>
          ev.title ++ " — " ++ fmtDatetime ev ++ " at " ++ ev.location
            ++ ". Register: " ++ (ev.registration_link).getD "TBA"
            ++ "\nAbout: " ++ ev.description

/-- The state the HTTP surface threads through request handling: the
event store (read-only after load) and the clock. -/
structure ChatState where
  events : List Event
  today : SimpleDate
deriving DecidableEq

/-- One `/chat` request: compute the reply from the stored events and
the clock; nothing in the state is written. -/
def chatStep (st : ChatState) (msg : String) : String × ChatState :=
  (generateResponse msg st.events st.today, st)

/-! ## Scoring lemmas -/

/-- The per-token contribution of the `score_event` loop body. -/
def tokenPoints (ev : Event) (t : String) : Nat :=
  if t ∈ matchBag ev then 2
  else if (matchBag ev).any (fun w => isSubstrOf t w && decide (3 < t.length)) then 1
  else 0

/-- The per-token points as the specification words them: +2 for an
exact member of the match bag, otherwise +1 when the token has length
greater than 3 and is a substring of some bag word (one point at most,
however many bag words contain it), otherwise 0. -/
def specTokenPoints (ev : Event) (t : String) : Nat :=
  if t ∈ matchBag ev then 2
  else if 3 < t.length ∧ ∃ w ∈ matchBag ev, isSubstrOf t w then 1
  else 0

lemma tokenPoints_eq_spec (ev : Event) (t : String) :
    tokenPoints ev t = specTokenPoints ev t := by
  unfold tokenPoints specTokenPoints
  by_cases hmem : t ∈ matchBag ev
  · simp [hmem]
  · simp only [hmem, if_false]
    have : ((matchBag ev).any (fun w => isSubstrOf t w && decide (3 < t.length)) = true)
        ↔ (3 < t.length ∧ ∃ w ∈ matchBag ev, isSubstrOf t w) := by
      simp only [List.any_eq_true, Bool.and_eq_true, decide_eq_true_eq]
      constructor
      · rintro ⟨w, hw, hsub, hlen⟩
        exact ⟨hlen, w, hw, hsub⟩
      · rintro ⟨hlen, w, hw, hsub⟩
        exact ⟨w, hw, hsub, hlen⟩
    split_ifs with h1 h2 h2 <;> first | rfl | exact absurd (this.mp h1) h2 | exact absurd (this.mpr h2) h1

lemma scoreEvent_eq_sum (q : List String) (ev : Event) (today : SimpleDate) :
    scoreEvent q ev today = (q.dedup.map (tokenPoints ev)).sum + recencyBonus ev today := by
  unfold scoreEvent
  have h : ∀ (l : List String) (a : Nat),
      l.foldl (fun acc t =>
        if t ∈ matchBag ev then acc + 2
        else if (matchBag ev).any (fun w => isSubstrOf t w && decide (3 < t.length)) then acc + 1
        else acc) a
      = a + (l.map (tokenPoints ev)).sum := by
    intro l
    induction l with
    | nil => intro a; simp
    | cons x xs ih =>
      intro a
      simp only [List.foldl_cons, List.map_cons, List.sum_cons, tokenPoints]
      split_ifs <;> rw [ih] <;> omega
  simp only [h, Nat.zero_add]

lemma recencyBonus_le_one (ev : Event) (today : SimpleDate) :
    recencyBonus ev today ≤ 1 := by
  unfold recencyBonus
  cases parseDate ev.date with
  | none => exact Nat.zero_le 1
  | some d =>
    dsimp only
    split_ifs <;> omega

lemma tokenPoints_le_two (ev : Event) (t : String) : tokenPoints ev t ≤ 2 := by
  unfold tokenPoints; split_ifs <;> omega

/-- C1: `score_event` returns, over distinct query tokens, +2 for an
exact member of the event's match bag, else +1 for a length-over-3
token that is a substring of some bag word (capped at one point per
token), else 0 — plus a flat +1 when the event's date parses as
`YYYY-MM-DD` to a date on or after today, a missing or unparseable date
contributing 0 without error. -/
theorem score_event_spec (q : List String) (ev : Event) (today : SimpleDate) :
    scoreEvent q ev today
      = (q.dedup.map (specTokenPoints ev)).sum
        + (match parseDate ev.date with
           | some d => if dateLe today d then 1 else 0
           | none => 0) := by
  rw [scoreEvent_eq_sum]
  congr 1
  exact congrArg List.sum (List.map_congr_left (fun t _ => tokenPoints_eq_spec ev t))

/-- C10: the score depends only on the set of query tokens (invariant
under permutation and duplication) and is bounded by twice the number
of distinct tokens plus one. -/
theorem score_event_token_set_invariant (q1 q2 : List String) (ev : Event)
    (today : SimpleDate) (h : ∀ t, t ∈ q1 ↔ t ∈ q2) :
    scoreEvent q1 ev today = scoreEvent q2 ev today ∧
    scoreEvent q1 ev today ≤ 2 * q1.dedup.length + 1 := by
  constructor
  · have hperm : List.Perm q1.dedup q2.dedup := by
      rw [List.perm_ext_iff_of_nodup (List.nodup_dedup q1) (List.nodup_dedup q2)]
      intro a
      simp only [List.mem_dedup]
      exact h a
    rw [scoreEvent_eq_sum, scoreEvent_eq_sum]
    have := (hperm.map (tokenPoints ev)).sum_eq
    omega
  · rw [scoreEvent_eq_sum]
    have h2 : ∀ l : List String, (l.map (tokenPoints ev)).sum ≤ 2 * l.length := by
      intro l
      induction l with
      | nil => simp
      | cons x xs ih =>
        simp only [List.map_cons, List.sum_cons, List.length_cons]
        have := tokenPoints_le_two ev x
        omega
    have := h2 q1.dedup
    have := recencyBonus_le_one ev today
    omega

/-- Witness for C10 at a concrete duplicated/permuted pair of token
lists. -/
theorem score_event_token_set_invariant_witness :
    scoreEvent ["fest", "tech", "fest"]
      { title := "Tech Fest", description := "Annual technology festival",
        date := "2099-03-05", time := none, location := "Auditorium",
        organizer := none, fee := none, registration_link := none, tags := [] }
      ⟨2025, 1, 1⟩
    = scoreEvent ["tech", "fest"]
      { title := "Tech Fest", description := "Annual technology festival",
        date := "2099-03-05", time := none, location := "Auditorium",
        organizer := none, fee := none, registration_link := none, tags := [] }
      ⟨2025, 1, 1⟩ :=
  (score_event_token_set_invariant ["fest", "tech", "fest"] ["tech", "fest"] _ _
    (by intro t; simp only [List.mem_cons, List.not_mem_nil, or_false]; tauto)).1

/-! ## Ranking lemmas -/

/-- The head of the stable descending sort: a maximal-key element that
every strictly earlier element of the original list strictly
undercuts — i.e. the first maximum, as Python's stable
`sorted(..., reverse=True)` places it. -/
lemma sortStable_desc_head {α : Type} (key : α → Nat) :
    ∀ l : List α, l ≠ [] →
      ∃ hd tl pre post,
        sortStable (fun a b => decide (key b < key a)) l = hd :: tl ∧
        l = pre ++ hd :: post ∧
        (∀ y ∈ l, key y ≤ key hd) ∧
        (∀ y ∈ pre, key y < key hd) := by
  intro l
  induction l with
  | nil => intro hne; exact absurd rfl hne
  | cons x xs ih =>
    intro _
    cases xs with
    | nil =>
      refine ⟨x, [], [], [], rfl, rfl, ?_, ?_⟩
      · intro y hy
        rw [List.mem_singleton] at hy
        exact hy ▸ Nat.le_refl _
      · intro y hy
        exact absurd hy (List.not_mem_nil y)
    | cons z zs =>
      obtain ⟨hd, tl, pre, post, hsort, hdecomp, hmax, hpre⟩ :=
        ih (List.cons_ne_nil z zs)
      have hstep : sortStable (fun a b => decide (key b < key a)) (x :: z :: zs)
          = insertStable (fun a b => decide (key b < key a)) x (hd :: tl) := by
        rw [← hsort]; rfl
      by_cases hcmp : key x < key hd
      · refine ⟨hd, insertStable (fun a b => decide (key b < key a)) x tl,
          x :: pre, post, ?_, ?_, ?_, ?_⟩
        · rw [hstep]
          simp [insertStable, hcmp]
        · rw [List.cons_append, ← hdecomp]
        · intro y hy
          rcases List.mem_cons.mp hy with hy | hy
          · exact hy ▸ Nat.le_of_lt hcmp
          · exact hmax y hy
        · intro y hy
          rcases List.mem_cons.mp hy with hy | hy
          · exact hy ▸ hcmp
          · exact hpre y hy
      · refine ⟨x, hd :: tl, [], z :: zs, ?_, rfl, ?_, ?_⟩
        · rw [hstep]
          simp [insertStable, hcmp]
        · intro y hy
          rcases List.mem_cons.mp hy with hy | hy
          · exact hy ▸ Nat.le_refl _
          · exact Nat.le_trans (hmax y hy) (Nat.le_of_not_lt hcmp)
        · intro y hy
          exact absurd hy (List.not_mem_nil y)

/-- `find_best_event` in terms of the first maximum of the collection. -/
lemma findBestEvent_spec (q : List String) (events : List Event)
    (today : SimpleDate) (h : events ≠ []) :
    ∃ hd pre post,
      events = pre ++ hd :: post ∧
      (∀ y ∈ events, scoreEvent q y today ≤ scoreEvent q hd today) ∧
      (∀ y ∈ pre, scoreEvent q y today < scoreEvent q hd today) ∧
      findBestEvent q events today
        = (if scoreEvent q hd today < 2 then none else some hd) := by
  obtain ⟨hd, tl, pre, post, hsort, hdecomp, hmax, hpre⟩ :=
    sortStable_desc_head (fun e => scoreEvent q e today) events h
  refine ⟨hd, pre, post, hdecomp, hmax, hpre, ?_⟩
  unfold findBestEvent
  rw [hsort]

/-- If every event scores below 2, `find_best_event` reports no match. -/
lemma findBestEvent_none_of_all_lt (q : List String) (events : List Event)
    (today : SimpleDate) (h : ∀ e ∈ events, scoreEvent q e today < 2) :
    findBestEvent q events today = none := by
  rcases events with _ | ⟨a, as⟩
  · rfl
  · obtain ⟨hd, pre, post, hdecomp, hmax, hpre, heq⟩ :=
      findBestEvent_spec q (a :: as) today (List.cons_ne_nil a as)
    have hmem : hd ∈ a :: as := by
      rw [hdecomp]
      exact List.mem_append_right pre (List.mem_cons_self hd post)
    rw [heq, if_pos (h hd hmem)]

/-- C2: `find_best_event` returns the maximum-score event, ties broken
in favor of the earliest event in the original collection order, and
returns `none` ("no match") exactly when the maximum score is below 2. -/
theorem find_best_event_ranking (q : List String) (events : List Event)
    (today : SimpleDate) (h : events ≠ []) :
    (findBestEvent q events today = none ↔ ∀ e ∈ events, scoreEvent q e today < 2) ∧
    (∀ e, findBestEvent q events today = some e →
      2 ≤ scoreEvent q e today ∧
      (∀ y ∈ events, scoreEvent q y today ≤ scoreEvent q e today) ∧
      ∃ pre post, events = pre ++ e :: post ∧
        ∀ y ∈ pre, scoreEvent q y today < scoreEvent q e today) := by
  obtain ⟨hd, pre, post, hdecomp, hmax, hpre, heq⟩ := findBestEvent_spec q events today h
  have hmem : hd ∈ events := by
    rw [hdecomp]
    exact List.mem_append_right pre (List.mem_cons_self hd post)
  constructor
  · constructor
    · intro hnone e he
      rw [heq] at hnone
      by_cases hlt : scoreEvent q hd today < 2
      · exact Nat.lt_of_le_of_lt (hmax e he) hlt
      · rw [if_neg hlt] at hnone
        exact absurd hnone (Option.some_ne_none hd)
    · intro hall
      rw [heq, if_pos (hall hd hmem)]
  · intro e hsome
    rw [heq] at hsome
    by_cases hlt : scoreEvent q hd today < 2
    · rw [if_pos hlt] at hsome
      exact absurd hsome.symm (Option.some_ne_none e)
    · rw [if_neg hlt] at hsome
      obtain rfl := Option.some.inj hsome
      exact ⟨Nat.le_of_not_lt hlt, hmax, pre, post, hdecomp, hpre⟩

/-- If no token of `T` earns lexical points against `ev`, the score is
the recency bonus alone, hence below 2. -/
lemma scoreEvent_lt_two_of_no_hit (T : List String) (ev : Event)
    (today : SimpleDate) (h : ∀ t ∈ T, specTokenPoints ev t = 0) :
    scoreEvent T ev today < 2 := by
  rw [scoreEvent_eq_sum]
  have hsum : (T.dedup.map (tokenPoints ev)).sum = 0 := by
    apply List.sum_eq_zero
    intro x hx
    obtain ⟨t, ht, rfl⟩ := List.mem_map.mp hx
    rw [tokenPoints_eq_spec]
    exact h t (List.mem_dedup.mp ht)
  have := recencyBonus_le_one ev today
  omega

/-- C3: a query with no lexical hit to any event's match bag scores
below 2 on every event even with the recency bonus, so the ranker never
selects an event on recency alone; in particular a single-word query
with no lexical hit yields the "no match" fallback even when every
event is upcoming. -/
theorem no_recency_only_selection (T : List String) (events : List Event)
    (today : SimpleDate) (hne : events ≠ [])
    (h : ∀ ev ∈ events, ∀ t ∈ T, specTokenPoints ev t = 0) :
    (∀ ev ∈ events, scoreEvent T ev today < 2) ∧
    findBestEvent T events today = none ∧
    (∀ w : String, (∀ ev ∈ events, specTokenPoints ev w = 0) →
      findBestEvent [w] events today = none) := by
  refine ⟨fun ev hev => scoreEvent_lt_two_of_no_hit T ev today (h ev hev), ?_, ?_⟩
  · exact findBestEvent_none_of_all_lt T events today
      (fun e he => scoreEvent_lt_two_of_no_hit T e today (h e he))
  · intro w hw
    refine findBestEvent_none_of_all_lt [w] events today (fun e he => ?_)
    refine scoreEvent_lt_two_of_no_hit [w] e today (fun t ht => ?_)
    rw [List.mem_singleton] at ht
    exact ht ▸ hw e he

/-- A concrete upcoming event for witnesses. -/
def evA : Event :=
  { title := "Hackathon", description := "A coding marathon event",
    date := "2099-01-02", time := some "10:00", location := "Main Hall",
    organizer := some "CS Club", fee := some "100",
    registration_link := some "http link", tags := ["coding", "tech"] }

/-- A second concrete upcoming event for witnesses. -/
def evB : Event :=
  { title := "Tech Fest", description := "Annual technology festival",
    date := "2099-03-05", time := none, location := "Auditorium",
    organizer := none, fee := none, registration_link := none, tags := [] }

/-- A concrete "current date" for witnesses. -/
def dToday : SimpleDate := ⟨2025, 1, 1⟩

/-- Witness for C2: on a concrete store, the selected event is the
maximum-score, earliest one and clears the threshold. -/
theorem find_best_event_ranking_witness :
    2 ≤ scoreEvent ["hackathon"] evA dToday ∧
    (∀ y ∈ [evA, evB], scoreEvent ["hackathon"] y dToday ≤ scoreEvent ["hackathon"] evA dToday) ∧
    ∃ pre post, [evA, evB] = pre ++ evA :: post ∧
      ∀ y ∈ pre, scoreEvent ["hackathon"] y dToday < scoreEvent ["hackathon"] evA dToday :=
  (find_best_event_ranking ["hackathon"] [evA, evB] dToday (by decide)).2 evA (by decide)

/-- Witness for C3: a one-word query hitting no match bag is rejected
although both stored events are upcoming. -/
theorem no_recency_only_selection_witness :
    (∀ ev ∈ [evA, evB], scoreEvent ["zzz"] ev dToday < 2) ∧
    findBestEvent ["zzz"] [evA, evB] dToday = none ∧
    (∀ w : String, (∀ ev ∈ [evA, evB], specTokenPoints ev w = 0) →
      findBestEvent [w] [evA, evB] dToday = none) :=
  no_recency_only_selection ["zzz"] [evA, evB] dToday (by decide) (by decide)

/-! ## Reply-string lemmas -/

lemma append_ne_empty_of_left (a b : String) (h : 0 < a.length) : a ++ b ≠ "" := by
  intro hc
  have hl := congrArg String.length hc
  rw [String.length_append] at hl
  have h0 : ("" : String).length = 0 := rfl
  omega

lemma foldl_join_length (sep : String) :
    ∀ (l : List String) (acc : String),
      acc.length ≤ (l.foldl (fun acc y => acc ++ sep ++ y) acc).length := by
  intro l
  induction l with
  | nil => intro acc; exact Nat.le_refl _
  | cons x xs ih =>
    intro acc
    refine Nat.le_trans ?_ (ih (acc ++ sep ++ x))
    rw [String.length_append, String.length_append]
    omega

lemma joinSep_cons (sep x : String) (xs : List String) :
    joinSep sep (x :: xs) = xs.foldl (fun acc y => acc ++ sep ++ y) x := rfl

lemma joinSep_ne_empty (sep x : String) (xs : List String) (h : 0 < x.length) :
    joinSep sep (x :: xs) ≠ "" := by
  intro hc
  rw [joinSep_cons] at hc
  have hl := congrArg String.length hc
  have hge := foldl_join_length sep xs x
  have h0 : String.length "" = 0 := rfl
  omega

lemma replyNext_ne_empty (events : List Event) (today : SimpleDate) :
    replyNext events today ≠ "" := by
  unfold replyNext
  cases upcomingSorted events today with
  | nil => decide
  | cons p ps =>
    exact joinSep_ne_empty "\n" "🗓️ Upcoming events:" _ (by decide)

lemma replyWhen_ne_empty (ev : Event) : replyWhen ev ≠ "" := by
  intro h
  have hl := congrArg String.length h
  simp only [replyWhen, String.length_append] at hl
  have hpos : 0 < ("📅 " : String).length := by decide
  have h0 : String.length "" = 0 := rfl
  omega

lemma replyWhere_ne_empty (ev : Event) : replyWhere ev ≠ "" := by
  intro h
  have hl := congrArg String.length h
  simp only [replyWhere, String.length_append] at hl
  have hpos : 0 < ("📍 Venue: " : String).length := by decide
  have h0 : String.length "" = 0 := rfl
  omega

lemma replyWho_ne_empty (ev : Event) : replyWho ev ≠ "" := by
  intro h
  have hl := congrArg String.length h
  simp only [replyWho, String.length_append] at hl
  have hpos : 0 < ("👥 Organized by " : String).length := by decide
  have h0 : String.length "" = 0 := rfl
  omega

lemma replyWhat_ne_empty (ev : Event) : replyWhat ev ≠ "" := by
  intro h
  have hl := congrArg String.length h
  simp only [replyWhat, String.length_append] at hl
  have hpos : 0 < ("ℹ️ " : String).length := by decide
  have h0 : String.length "" = 0 := rfl
  omega

/-- `reply_register` in closed form: the fee segment appears exactly
when the fee is truthy, and the parts are joined by the separator. -/
lemma replyRegister_eq (ev : Event) :
    replyRegister ev
      = if feeTruthy ev then
          "📝 Registration for " ++ ev.title ++ " | " ++ "Fee: ₹" ++ feeStrOf ev
            ++ " | " ++ "Link: " ++ linkTextOf ev
        else
          "📝 Registration for " ++ ev.title ++ " | " ++ "Link: " ++ linkTextOf ev := by
  have h1 : ¬("📝 Registration for " ++ ev.title = "") :=
    append_ne_empty_of_left _ _ (by decide)
  have h3 : ¬("Link: " ++ linkTextOf ev = "") :=
    append_ne_empty_of_left _ _ (by decide)
  have m1 : ∀ z : String, (" | " : String) ++ ("Fee: ₹" ++ z) = " | Fee: ₹" ++ z := by
    intro z
    rw [← String.append_assoc]
    rfl
  have m2 : ∀ z : String, (" | " : String) ++ ("Link: " ++ z) = " | Link: " ++ z := by
    intro z
    rw [← String.append_assoc]
    rfl
  by_cases hf : feeTruthy ev
  · have h2 : ¬("Fee: ₹" ++ feeStrOf ev = "") :=
      append_ne_empty_of_left _ _ (by decide)
    simp [replyRegister, hf, List.filter_cons, h1, h2, h3, joinSep, String.append_assoc, m1, m2]
  · simp [replyRegister, hf, List.filter_cons, h1, h3, joinSep, String.append_assoc, m1, m2]

lemma replyRegister_ne_empty (ev : Event) : replyRegister ev ≠ "" := by
  rw [replyRegister_eq]
  have hpos : 0 < ("📝 Registration for " : String).length := by decide
  split_ifs
  · apply append_ne_empty_of_left
    simp only [String.length_append]
    omega
  · apply append_ne_empty_of_left
    simp only [String.length_append]
    omega

lemma intentHandler_ne_empty (intent : String) (ev : Event)
    (h : intent ∈ ["when", "where", "register", "who", "what"]) :
    intentHandler intent ev ≠ "" := by
  simp only [List.mem_cons, List.not_mem_nil, or_false] at h
  rcases h with rfl | rfl | rfl | rfl | rfl
  · simpa [intentHandler] using replyWhen_ne_empty ev
  · simpa [intentHandler] using replyWhere_ne_empty ev
  · simpa [intentHandler] using replyRegister_ne_empty ev
  · simpa [intentHandler] using replyWho_ne_empty ev
  · simpa [intentHandler] using replyWhat_ne_empty ev

lemma defaultCard_ne_empty (ev : Event) :
    ev.title ++ " — " ++ fmtDatetime ev ++ " at " ++ ev.location
      ++ ". Register: " ++ (ev.registration_link).getD "TBA"
      ++ "\nAbout: " ++ ev.description ≠ "" := by
  intro h
  have hl := congrArg String.length h
  simp only [String.length_append] at hl
  have hpos : 0 < (" — " : String).length := by decide
  have h0 : String.length "" = 0 := rfl
  omega

/-- C4: `generate_response` is total — it yields a (non-empty) reply
string on every input given a schema-conforming non-empty event store,
and empty or whitespace-only inputs yield the fixed prompt reply. -/
theorem generate_response_total (s : String) (events : List Event)
    (today : SimpleDate) (hne : events ≠ []) :
    generateResponse s events today ≠ "" ∧
    (isBlank s = true →
      generateResponse s events today = "Please type a question about a college event.") := by
  constructor
  · unfold generateResponse
    by_cases hb : isBlank s
    · simp only [hb, if_true]
      decide
    · simp only [hb, Bool.false_eq_true, if_false]
      by_cases hg : ["hello", "hi", "hey"].any (fun w => w ∈ normalizeTokens (tokenize s))
      · simp only [hg, if_true]
        decide
      · simp only [hg, Bool.false_eq_true, if_false]
        by_cases hn : "next" ∈ detectIntents (normalizeTokens (tokenize s))
        · simp only [hn, if_true]
          exact replyNext_ne_empty events today
        · simp only [hn, if_false]
          cases hfind : findBestEvent (normalizeTokens (tokenize s)) events today with
          | none =>
            apply append_ne_empty_of_left
            decide
          | some ev =>
            cases hfi : ["when", "where", "register", "who", "what"].find?
                (fun i => i ∈ detectIntents (normalizeTokens (tokenize s))) with
            | none => exact defaultCard_ne_empty ev
            | some intent =>
              exact intentHandler_ne_empty intent ev (List.mem_of_find?_eq_some hfi)
  · intro hb
    unfold generateResponse
    rw [if_pos hb]

/-- Witness for C4: a whitespace-only input on a concrete store yields
the fixed prompt. -/
theorem generate_response_total_witness :
    generateResponse "   " [evA] dToday ≠ "" ∧
    generateResponse "   " [evA] dToday = "Please type a question about a college event." :=
  ⟨(generate_response_total "   " [evA] dToday (by decide)).1,
   (generate_response_total "   " [evA] dToday (by decide)).2 (by decide)⟩

/-- C6: when both "when" and "where" intents are detected, an event is
matched and no earlier branch fires, the reply is the "when" handler's
output — the dispatch takes the first present intent of the fixed
priority list, and "when" precedes "where". -/
theorem when_over_where_priority (s : String) (events : List Event)
    (today : SimpleDate) (ev : Event)
    (hb : isBlank s = false)
    (hg : (["hello", "hi", "hey"].any
      (fun w => w ∈ normalizeTokens (tokenize s))) = false)
    (hn : "next" ∉ detectIntents (normalizeTokens (tokenize s)))
    (hwhen : "when" ∈ detectIntents (normalizeTokens (tokenize s)))
    (hwhere : "where" ∈ detectIntents (normalizeTokens (tokenize s)))
    (hfound : findBestEvent (normalizeTokens (tokenize s)) events today = some ev) :
    generateResponse s events today = replyWhen ev := by
  have hqf : List.find? (fun i => decide (i ∈ detectIntents (normalizeTokens (tokenize s))))
      ["when", "where", "register", "who", "what"] = some "when" := by
    rw [List.find?_cons_of_pos]
    exact decide_eq_true hwhen
  unfold generateResponse
  simp only [hb, Bool.false_eq_true, if_false, hg, hn]
  rw [hfound]
  simp only [hqf]
  simp [intentHandler]

/-- Witness for C6: a concrete query holding both "when" and "where"
synonyms answers with the "when" handler. -/
theorem when_over_where_priority_witness :
    generateResponse "date venue hackathon" [evA, evB] dToday = replyWhen evA :=
  when_over_where_priority "date venue hackathon" [evA, evB] dToday evA
    (by decide) (by decide) (by decide) (by decide) (by decide) (by decide)

/-! ## Upcoming-digest lemmas -/

lemma insertStable_perm {α : Type} (lt : α → α → Bool) (x : α) :
    ∀ l : List α, List.Perm (insertStable lt x l) (x :: l) := by
  intro l
  induction l with
  | nil => exact List.Perm.refl _
  | cons y ys ih =>
    unfold insertStable
    by_cases h : lt y x
    · simp only [h, if_true]
      exact (ih.cons y).trans (List.Perm.swap x y ys)
    · rw [if_neg h]

lemma sortStable_perm {α : Type} (lt : α → α → Bool) :
    ∀ l : List α, List.Perm (sortStable lt l) l := by
  intro l
  induction l with
  | nil => exact List.Perm.refl _
  | cons x xs ih =>
    exact (insertStable_perm lt x (sortStable lt xs)).trans (ih.cons x)

lemma dateLe_of_lt (a b : SimpleDate) (h : dateLt a b = true) : dateLe a b = true := by
  simp only [dateLt, decide_eq_true_eq] at h
  simp only [dateLe, decide_eq_true_eq]
  omega

lemma dateLe_of_not_lt (a b : SimpleDate) (h : ¬ dateLt a b = true) : dateLe b a = true := by
  simp only [dateLt, decide_eq_true_eq] at h
  simp only [dateLe, decide_eq_true_eq]
  omega

lemma dateLe_trans (a b c : SimpleDate) (h1 : dateLe a b = true)
    (h2 : dateLe b c = true) : dateLe a c = true := by
  simp only [dateLe, decide_eq_true_eq] at h1 h2 ⊢
  omega

lemma sorted_insertStable_date (x : SimpleDate × Event)
    (l : List (SimpleDate × Event))
    (h : List.Sorted (fun a b => dateLe a.1 b.1 = true) l) :
    List.Sorted (fun a b => dateLe a.1 b.1 = true)
      (insertStable (fun a b => dateLt a.1 b.1) x l) := by
  induction l with
  | nil => simp [insertStable]
  | cons y ys ih =>
    rw [List.sorted_cons] at h
    obtain ⟨hy, hys⟩ := h
    unfold insertStable
    by_cases hc : dateLt y.1 x.1
    · simp only [hc, if_true]
      rw [List.sorted_cons]
      refine ⟨?_, ih hys⟩
      intro b hb
      have hmem := (insertStable_perm _ x ys).mem_iff.mp hb
      rcases List.mem_cons.mp hmem with rfl | hbys
      · exact dateLe_of_lt _ _ hc
      · exact hy b hbys
    · rw [if_neg hc]
      rw [List.sorted_cons]
      refine ⟨?_, List.sorted_cons.mpr ⟨hy, hys⟩⟩
      intro b hb
      rcases List.mem_cons.mp hb with rfl | hbys
      · exact dateLe_of_not_lt _ _ hc
      · exact dateLe_trans _ _ _ (dateLe_of_not_lt _ _ hc) (hy b hbys)

lemma sorted_sortStable_date (l : List (SimpleDate × Event)) :
    List.Sorted (fun a b => dateLe a.1 b.1 = true)
      (sortStable (fun a b => dateLt a.1 b.1) l) := by
  induction l with
  | nil => simp [sortStable]
  | cons x xs ih => exact sorted_insertStable_date x _ ih

/-- C5: any non-empty, non-greeting input whose tokens trigger the
"next" intent gets exactly the digest generator's output; the digest
keeps the events whose date parses and is today-or-later, sorts them
ascending by date (stably), takes the first three, and renders the
fixed empty message or a header plus one bullet per event. -/
theorem next_intent_digest (s : String) (events : List Event)
    (today : SimpleDate)
    (hb : isBlank s = false)
    (hg : (["hello", "hi", "hey"].any
      (fun w => w ∈ normalizeTokens (tokenize s))) = false)
    (hn : "next" ∈ detectIntents (normalizeTokens (tokenize s))) :
    generateResponse s events today = replyNext events today ∧
    List.Perm (upcomingSorted events today) (upcomingEvents events today) ∧
    List.Sorted (fun a b => dateLe a.1 b.1 = true) (upcomingSorted events today) ∧
    (upcomingSorted events today = [] →
      replyNext events today
        = "There are no upcoming events right now. Please check back later.") ∧
    (∀ p ps, upcomingSorted events today = p :: ps →
      replyNext events today
        = joinSep "\n" ("🗓️ Upcoming events:" :: ((p :: ps).take 3).map bulletLine)) := by
  refine ⟨?_, sortStable_perm _ _, sorted_sortStable_date _, ?_, ?_⟩
  · unfold generateResponse
    simp only [hb, Bool.false_eq_true, if_false, hg]
    rw [if_pos hn]
  · intro h
    unfold replyNext
    rw [h]
  · intro p ps h
    unfold replyNext
    rw [h]

/-- Witness for C5: a concrete "next"-intent query gets the digest. -/
theorem next_intent_digest_witness :
    generateResponse "upcoming events" [evA, evB] dToday = replyNext [evA, evB] dToday :=
  (next_intent_digest "upcoming events" [evA, evB] dToday
    (by decide) (by decide) (by decide)).1

/-- C7: an event with empty tags and an empty or absent fee and
registration link produces a register reply (no error) that omits the
fee segment and shows the placeholder link text; in general the reply
joins the title part, the fee line (present exactly when the fee is
truthy) and the link line with the separator, dropping empty parts. -/
theorem register_reply_boundary (ev : Event) :
    (ev.tags = [] → (ev.fee = none ∨ ev.fee = some "") →
      (ev.registration_link = none ∨ ev.registration_link = some "") →
      replyRegister ev
        = "📝 Registration for " ++ ev.title
            ++ " | Link: Registration link will be announced soon.") ∧
    (feeTruthy ev = false →
      replyRegister ev
        = "📝 Registration for " ++ ev.title ++ " | " ++ "Link: " ++ linkTextOf ev) ∧
    (∀ f, ev.fee = some f → f ≠ "" →
      replyRegister ev
        = "📝 Registration for " ++ ev.title ++ " | " ++ "Fee: ₹" ++ f
            ++ " | " ++ "Link: " ++ linkTextOf ev) := by
  refine ⟨?_, ?_, ?_⟩
  · intro _ hf hl
    have hfee : feeTruthy ev = false := by
      rcases hf with hf | hf <;> simp [feeTruthy, hf]
    have hlink : linkTextOf ev = "Registration link will be announced soon." := by
      rcases hl with hl | hl <;> simp [linkTextOf, hl]
    rw [replyRegister_eq, hfee]
    simp only [Bool.false_eq_true, if_false]
    rw [hlink]
    simp [String.append_assoc]
  · intro hfee
    rw [replyRegister_eq, hfee]
    simp only [Bool.false_eq_true, if_false]
  · intro f hf hfne
    have hfee : feeTruthy ev = true := by simp [feeTruthy, hf, hfne]
    have hstr : feeStrOf ev = f := by simp [feeStrOf, hf]
    rw [replyRegister_eq, hfee]
    simp only [if_true]
    rw [hstr]

/-- Witness for C7 at a concrete boundary event (no tags, no fee, no
link). -/
theorem register_reply_boundary_witness :
    replyRegister evB
      = "📝 Registration for " ++ evB.title
          ++ " | Link: Registration link will be announced soon." :=
  (register_reply_boundary evB).1 rfl (Or.inl rfl) (Or.inl rfl)

/-- C9: a `/chat` request writes nothing — the post-state is the
pre-state — and a repeated identical call on the resulting state yields
the identical reply; the reply is a pure function of the input, the
event store and the clock. -/
theorem chat_idempotent_no_mutation (st : ChatState) (msg : String) :
    (chatStep st msg).2 = st ∧
    (chatStep ((chatStep st msg).2) msg).1 = (chatStep st msg).1 ∧
    (chatStep st msg).1 = generateResponse msg st.events st.today :=
  ⟨rfl, rfl, rfl⟩

/-! ## Decimal-digit and date round-trip lemmas -/

lemma natToDigitsAux_fuel : ∀ (n fuel1 fuel2 : Nat), n < fuel1 → n < fuel2 →
    natToDigitsAux fuel1 n = natToDigitsAux fuel2 n := by
  intro n
  induction n using Nat.strong_induction_on with
  | _ n ih =>
    intro fuel1 fuel2 h1 h2
    match fuel1, fuel2 with
    | f1 + 1, f2 + 1 =>
      unfold natToDigitsAux
      by_cases hn : n < 10
      · simp [hn]
      · simp only [hn, if_false]
        have hd : n / 10 < n := Nat.div_lt_self (by omega) (by omega)
        rw [ih (n / 10) hd f1 f2 (by omega) (by omega)]

lemma natToDigits_lt10 (n : Nat) (h : n < 10) : natToDigits n = [digitChar n] := by
  unfold natToDigits natToDigitsAux
  simp [h]

lemma natToDigits_ge10 (n : Nat) (h : 10 ≤ n) :
    natToDigits n = natToDigits (n / 10) ++ [digitChar (n % 10)] := by
  have hlt : ¬ n < 10 := by omega
  have h1 : natToDigits n = natToDigitsAux n (n / 10) ++ [digitChar (n % 10)] := by
    unfold natToDigits
    rw [natToDigitsAux]
    simp [hlt]
  rw [h1, natToDigitsAux_fuel (n / 10) n ((n / 10) + 1)
    (Nat.div_lt_self (by omega) (by omega)) (Nat.lt_succ_self _)]
  rfl

lemma digitChar_toNat (d : Nat) (h : d < 10) : (digitChar d).toNat = 48 + d := by
  interval_cases d <;> decide

lemma digitChar_isDigit (d : Nat) (h : d < 10) : (digitChar d).isDigit = true := by
  interval_cases d <;> decide

lemma natToDigits_all_digit (n : Nat) : (natToDigits n).all Char.isDigit = true := by
  induction n using Nat.strong_induction_on with
  | _ n ih =>
    by_cases h : n < 10
    · rw [natToDigits_lt10 n h]
      simp [digitChar_isDigit n h]
    · rw [natToDigits_ge10 n (by omega), List.all_append]
      simp [ih (n / 10) (Nat.div_lt_self (by omega) (by omega)),
        digitChar_isDigit (n % 10) (Nat.mod_lt _ (by omega))]

lemma natToDigits_ne_nil (n : Nat) : natToDigits n ≠ [] := by
  by_cases h : n < 10
  · rw [natToDigits_lt10 n h]
    exact List.cons_ne_nil _ _
  · rw [natToDigits_ge10 n (by omega)]
    simp

lemma digitsToNat_append_single (cs : List Char) (c : Char) :
    digitsToNat (cs ++ [c]) = digitsToNat cs * 10 + (c.toNat - 48) := by
  unfold digitsToNat
  rw [List.foldl_append]
  rfl

lemma digitsToNat_natToDigits (n : Nat) : digitsToNat (natToDigits n) = n := by
  induction n using Nat.strong_induction_on with
  | _ n ih =>
    by_cases h : n < 10
    · rw [natToDigits_lt10 n h]
      have he : digitsToNat [digitChar n] = (digitChar n).toNat - 48 := by
        unfold digitsToNat
        simp
      rw [he, digitChar_toNat n h]
      omega
    · rw [natToDigits_ge10 n (by omega), digitsToNat_append_single,
        ih (n / 10) (Nat.div_lt_self (by omega) (by omega)),
        digitChar_toNat (n % 10) (Nat.mod_lt _ (by omega))]
      omega

lemma splitChar_no_sep (sep : Char) :
    ∀ cs : List Char, (∀ c ∈ cs, c ≠ sep) → splitChar sep cs = [cs] := by
  intro cs
  induction cs with
  | nil => intro _; rfl
  | cons c cs ih =>
    intro h
    have hc : ¬(c = sep) := h c (List.mem_cons_self c cs)
    unfold splitChar
    rw [if_neg hc, ih (fun x hx => h x (List.mem_cons_of_mem c hx))]

lemma splitChar_append (sep : Char) :
    ∀ (xs rest : List Char), (∀ c ∈ xs, c ≠ sep) →
      splitChar sep (xs ++ sep :: rest) = xs :: splitChar sep rest := by
  intro xs
  induction xs with
  | nil =>
    intro rest _
    show splitChar sep (sep :: rest) = [] :: splitChar sep rest
    simp only [splitChar]
    rw [if_pos trivial]
  | cons x xs ih =>
    intro rest h
    have hx : ¬(x = sep) := h x (List.mem_cons_self x xs)
    show splitChar sep (x :: (xs ++ sep :: rest)) = (x :: xs) :: splitChar sep rest
    simp only [splitChar]
    rw [if_neg hx, ih rest (fun c hc => h c (List.mem_cons_of_mem x hc))]

lemma ne_space_of_isDigit (c : Char) (h : c.isDigit = true) : c ≠ ' ' := by
  intro hc
  subst hc
  exact absurd h (by decide)

lemma pad2_all_digit (n : Nat) : (pad2 n).all Char.isDigit = true := by
  unfold pad2
  by_cases h : n < 10
  · simp [h, digitChar_isDigit n h]
  · simp [h, natToDigits_all_digit]

lemma pad2_ne_nil (n : Nat) : pad2 n ≠ [] := by
  unfold pad2
  by_cases h : n < 10
  · simp [h]
  · simp [h, natToDigits_ne_nil]

lemma digitsToNat_pad2 (n : Nat) (h : n < 100) : digitsToNat (pad2 n) = n := by
  unfold pad2
  by_cases hl : n < 10
  · rw [if_pos hl]
    have he : digitsToNat ['0', digitChar n] = (digitChar n).toNat - 48 := by
      unfold digitsToNat
      simp
    rw [he, digitChar_toNat n hl]
    omega
  · rw [if_neg hl]
    exact digitsToNat_natToDigits n

lemma monthFromAbbrev_monthAbbrev (m : Nat) (h1 : 1 ≤ m) (h2 : m ≤ 12) :
    monthFromAbbrev (monthAbbrev m) = some m := by
  interval_cases m <;> decide

lemma monthAbbrev_no_space (m : Nat) (h1 : 1 ≤ m) (h2 : m ≤ 12) :
    ∀ c ∈ monthAbbrev m, c ≠ ' ' := by
  interval_cases m <;> decide

lemma monthAbbrev_ne_nil (m : Nat) (h1 : 1 ≤ m) (h2 : m ≤ 12) :
    monthAbbrev m ≠ [] := by
  interval_cases m <;> decide

/-- Reading the `DD Mon YYYY` rendering of a valid date recovers the
date. -/
lemma readDMY_fmtDMY (d : SimpleDate) (h1 : 1 ≤ d.month) (h2 : d.month ≤ 12)
    (h3 : d.day < 100) : readDMY (fmtDMY d) = some d := by
  have hdayns : ∀ c ∈ pad2 d.day, c ≠ ' ' := by
    intro c hc
    exact ne_space_of_isDigit c (by
      have := pad2_all_digit d.day
      rw [List.all_eq_true] at this
      exact this c hc)
  have hmonns := monthAbbrev_no_space d.month h1 h2
  have hsplit : splitChar ' ' (fmtDMY d).toList
      = [pad2 d.day, monthAbbrev d.month, natToDigits d.year] := by
    have h0 : (fmtDMY d).toList
        = (pad2 d.day ++ ' ' :: monthAbbrev d.month) ++ ' ' :: natToDigits d.year := rfl
    rw [h0, List.append_assoc, List.cons_append,
      splitChar_append ' ' (pad2 d.day) _ hdayns,
      splitChar_append ' ' (monthAbbrev d.month) _ hmonns,
      splitChar_no_sep ' ' (natToDigits d.year) (fun c hc =>
        ne_space_of_isDigit c (by
          have := natToDigits_all_digit d.year
          rw [List.all_eq_true] at this
          exact this c hc))]
  unfold readDMY
  rw [hsplit]
  show (if pad2 d.day ≠ [] ∧ (pad2 d.day).all Char.isDigit = true ∧
      natToDigits d.year ≠ [] ∧ (natToDigits d.year).all Char.isDigit = true then
      Option.map
        (fun m => SimpleDate.mk (digitsToNat (natToDigits d.year)) m (digitsToNat (pad2 d.day)))
        (monthFromAbbrev (monthAbbrev d.month))
    else none) = some d
  rw [if_pos ⟨pad2_ne_nil d.day, pad2_all_digit d.day,
    natToDigits_ne_nil d.year, natToDigits_all_digit d.year⟩]
  rw [monthFromAbbrev_monthAbbrev d.month h1 h2]
  simp [digitsToNat_natToDigits, digitsToNat_pad2 d.day h3]

/-- The bounds `parseDate` guarantees on a successful parse. -/
lemma parseDate_bounds (s : String) (dt : SimpleDate)
    (h : parseDate s = some dt) :
    1 ≤ dt.year ∧ 1 ≤ dt.month ∧ dt.month ≤ 12 ∧ 1 ≤ dt.day ∧
      dt.day ≤ daysInMonth dt.year dt.month := by
  unfold parseDate at h
  split at h
  next y m d =>
    split at h
    next hfmt =>
      dsimp only at h
      split at h
      next hval =>
        cases h
        exact ⟨hval.1, hval.2.1, hval.2.2.1, hval.2.2.2.1, hval.2.2.2.2⟩
      next => exact absurd h (by simp)
    next => exact absurd h (by simp)
  next => exact absurd h (by simp)

lemma daysInMonth_lt_100 (y m : Nat) : daysInMonth y m < 100 := by
  unfold daysInMonth
  split_ifs <;> omega

/-- C8: for an event whose date parses as `YYYY-MM-DD`, the date
portion of `fmt_datetime`'s output — exactly `fmtDMY` of the parsed
date, the output being that with an optional time suffix — reads back
under the `DD Mon YYYY` convention to the same calendar date. -/
theorem fmt_datetime_roundtrip (ev : Event) (dt : SimpleDate)
    (h : parseDate ev.date = some dt) :
    readDMY (fmtDMY dt) = some dt ∧
    (fmtDatetime ev = fmtDMY dt ∨
      fmtDatetime ev = fmtDMY dt ++ " at " ++ ev.time.getD "") := by
  have hb := parseDate_bounds ev.date dt h
  have hday : dt.day < 100 :=
    Nat.lt_of_le_of_lt hb.2.2.2.2 (daysInMonth_lt_100 dt.year dt.month)
  refine ⟨readDMY_fmtDMY dt hb.2.1 hb.2.2.1 hday, ?_⟩
  unfold fmtDatetime
  rw [h]
  dsimp only
  split_ifs
  · exact Or.inl rfl
  · exact Or.inr rfl

/-- Witness for C8 at a concrete event and date. -/
theorem fmt_datetime_roundtrip_witness :
    readDMY (fmtDMY ⟨2099, 1, 2⟩) = some ⟨2099, 1, 2⟩ ∧
    (fmtDatetime evA = fmtDMY ⟨2099, 1, 2⟩ ∨
      fmtDatetime evA = fmtDMY ⟨2099, 1, 2⟩ ++ " at " ++ evA.time.getD "") :=
  fmt_datetime_roundtrip evA ⟨2099, 1, 2⟩ (by decide)
